import Mathlib

/-!
Verification of the shelf repository: candidate aggregation, ancestry
classification, display deduplication, filesystem scanning and the
selection pipeline, shallowly embedded from the Rust sources
(src/cmd/gitjump.rs, src/git.rs, src/scan.rs, src/cmd/project.rs,
src/cmd/project/project_dir.rs).
-/

namespace Shelf

/-! ## Generic stable insertion sort

Models Rust Vec::sort / sort_by: a stable sort that is ascending with
respect to a boolean comparison. Rust sorts by an Ordering comparator;
an element a may precede b in the sorted output exactly when the
comparator does not return Greater on (a, b), which we encode as a
boolean relation le. -/

def insertLe (le : α → α → Bool) (a : α) : List α → List α
  | [] => [a]
  | b :: bs => if le a b then a :: b :: bs else b :: insertLe le a bs

def sortLe (le : α → α → Bool) : List α → List α
  | [] => []
  | a :: as => insertLe le a (sortLe le as)

/-! ## Ordering primitives

lexCmp models Rust String::cmp on the character sequence (UTF-8 byte
order agrees with code-point order), boolCmp models bool::cmp
(false < true), intCmp models i64::cmp. -/

def lexCmp : List Char → List Char → Ordering
  | [], [] => .eq
  | [], _ :: _ => .lt
  | _ :: _, [] => .gt
  | a :: as, b :: bs =>
    if a.toNat < b.toNat then .lt
    else if b.toNat < a.toNat then .gt
    else lexCmp as bs

def boolCmp : Bool → Bool → Ordering
  | false, false => .eq
  | false, true => .lt
  | true, false => .gt
  | true, true => .eq

def intCmp (m n : Int) : Ordering :=
  if m < n then .lt else if n < m then .gt else .eq

/-! ## Git data model (src/git.rs)

Object ids are modelled as natural numbers, commit times as integers
(seconds since epoch; the git2 Time ordering used by GitCommit
PartialOrd compares the raw seconds). -/

abbrev Oid : Type := Nat

inductive BranchType where
  | Local
  | Remote
deriving DecidableEq, Repr

inductive BranchStatus where
  | Unique
  | Ahead
  | Behind
  | Match
deriving DecidableEq, Repr

structure GitCommit where
  id : Oid
  message : String
  time : Int
  author : String
deriving DecidableEq, Repr

structure GitBranch where
  name : String
  ref_name : String
  branch_type : BranchType
  head : Bool
  upstream : Option String
  status : BranchStatus
deriving DecidableEq, Repr

/-- The tail of the GitBranch comparison: by reference name, then by
the head flag. -/
def refHeadCmp (r1 r2 : List Char) (h1 h2 : Bool) : Ordering :=
  match lexCmp r1 r2 with
  | .eq => boolCmp h1 h2
  | o => o

/-- Ord for GitBranch (src/git.rs lines 62-77): local before remote,
then by reference name, then by the head flag (false before true, so
the checked-out branch sorts last among equals). -/
def branchCmp (a b : GitBranch) : Ordering :=
  match a.branch_type, b.branch_type with
  | .Local, .Remote => .lt
  | .Remote, .Local => .gt
  | _, _ => refHeadCmp a.ref_name.data b.ref_name.data a.head b.head

/-- Rust Vec::sort keeps a before b whenever the comparator does not
answer Greater on (a, b). -/
def branchLe (a b : GitBranch) : Bool := !(branchCmp a b == .gt)

/-- Ord for GitCommit (src/git.rs lines 87-98): by timestamp only. -/
def gitCommitCmp (a b : GitCommit) : Ordering := intCmp a.time b.time

structure GitTarget where
  repo_path : String
  commit : GitCommit
  branches : List GitBranch
  is_merged : Bool
  is_primary : Bool
deriving DecidableEq, Repr

/-- Ord for GitTarget (src/cmd/gitjump.rs lines 159-169): delegates to
the commit comparison. -/
def gitTargetCmp (a b : GitTarget) : Ordering := gitCommitCmp a.commit b.commit

/-- build_targets sorts with the reversed comparator (b.cmp(a)), so a
may precede b when that reversed comparator is not Greater. -/
def targetLe (a b : GitTarget) : Bool := !(gitTargetCmp b a == .gt)

/-! ## Target aggregation (src/cmd/gitjump.rs)

The git2 repository is modelled by the data the aggregator reads from
it: the iterated branches (RawBranch, one record per item of
repo.branches(None), with each fallible git2 query replaced by its
optional result) and the merge_base partial function. -/

def ORIGIN_HEAD : String := "refs/remotes/origin/HEAD"

/-- The upstream branch of an iterated branch, when branch.upstream()
succeeds: its tip commit (when peeling succeeds) and the string its
reference renders to. -/
structure UpstreamInfo where
  tip : Option GitCommit
  ref_string : String
deriving DecidableEq, Repr

/-- One item of the repo.branches(None) iterator. shorthand is
branch.name() collapsed to its successful non-null case (Err and
Ok(None) both skip the branch); refname is branch.get().name();
tip is GitCommit::from_branch. -/
structure RawBranch where
  shorthand : Option String
  refname : Option String
  branch_type : BranchType
  head : Bool
  tip : Option GitCommit
  upstream : Option UpstreamInfo
deriving DecidableEq, Repr

structure TargetFilter where
  branch_author : Option String
deriving DecidableEq, Repr

/-- TargetFilter::include_branch (src/cmd/gitjump.rs lines 198-216). -/
def includeBranch (tf : TargetFilter) (rb : RawBranch) (c : GitCommit) : Bool :=
  (match tf.branch_author with
   | some author => c.author == author
   | none => true)
  &&
  (match rb.refname with
   | some bref => !(bref == ORIGIN_HEAD)
   | none => true)

/-- Ancestry status against the configured upstream
(src/cmd/gitjump.rs lines 278-295). -/
def computeStatus (mb : Oid → Oid → Option Oid) (rb : RawBranch)
    (c : GitCommit) : BranchStatus :=
  match rb.upstream.bind (fun u => u.tip) with
  | none => .Unique
  | some upstream_commit =>
    if upstream_commit.id = c.id then .Match
    else
      match mb upstream_commit.id c.id with
      | some base => if base = upstream_commit.id then .Ahead else .Behind
      | none => .Behind

/-- The GitBranch record built for an included branch
(src/cmd/gitjump.rs lines 297-304). -/
def mkGitBranch (mb : Oid → Oid → Option Oid) (rb : RawBranch)
    (name : String) (c : GitCommit) : GitBranch :=
  { name := name
    upstream := rb.upstream.map (fun u => u.ref_string)
    ref_name := rb.refname.getD ""
    branch_type := rb.branch_type
    head := rb.head
    status := computeStatus mb rb c }

/-- The skip logic of build_branches plus the filter: returns the
resolved tip commit and the constructed GitBranch for branches that are
neither skipped nor filtered out. -/
def includeRaw (tf : TargetFilter) (mb : Oid → Oid → Option Oid)
    (rb : RawBranch) : Option (GitCommit × GitBranch) :=
  match rb.shorthand with
  | none => none
  | some name =>
    match rb.tip with
    | none => none
    | some c =>
      if includeBranch tf rb c then some (c, mkGitBranch mb rb name c)
      else none

/-- map.entry(c.id).or_insert(GitTarget { .. }).branches.push(branch)
(src/cmd/gitjump.rs lines 305-312), on an association-list model of the
HashMap. -/
def insertBranch (repoPath : String) (m : List (Oid × GitTarget))
    (c : GitCommit) (b : GitBranch) : List (Oid × GitTarget) :=
  match m with
  | [] =>
    [(c.id, { repo_path := repoPath, commit := c, branches := [b],
              is_merged := false, is_primary := false })]
  | (k, t) :: rest =>
    if k = c.id then (k, { t with branches := t.branches ++ [b] }) :: rest
    else (k, t) :: insertBranch repoPath rest c b

def processBranch (repoPath : String) (tf : TargetFilter)
    (mb : Oid → Oid → Option Oid) (m : List (Oid × GitTarget))
    (rb : RawBranch) : List (Oid × GitTarget) :=
  match includeRaw tf mb rb with
  | none => m
  | some (c, b) => insertBranch repoPath m c b

/-- build_branches (src/cmd/gitjump.rs lines 247-315): fold the branch
iterator into the target map. -/
def build_branches (repoPath : String) (tf : TargetFilter)
    (mb : Oid → Oid → Option Oid) (m : List (Oid × GitTarget))
    (rbs : List RawBranch) : List (Oid × GitTarget) :=
  rbs.foldl (processBranch repoPath tf mb) m

/-- The per-target pass of build_targets (src/cmd/gitjump.rs lines
229-242): sort the branch list, truncate it to one element unless
show_all_branches, then set the two ancestry flags from
merge_base(primary, commit) when the primary reference resolved. -/
def updateTarget (show_all_branches : Bool) (primary : Option Oid)
    (mb : Oid → Oid → Option Oid) (t : GitTarget) : GitTarget :=
  let branches := sortLe branchLe t.branches
  let branches := if show_all_branches then branches else branches.take 1
  match primary with
  | none => { t with branches := branches }
  | some p =>
    match mb p t.commit.id with
    | some x =>
      { t with branches := branches,
               is_merged := x == t.commit.id,
               is_primary := p == t.commit.id }
    | none => { t with branches := branches }

/-- build_targets (src/cmd/gitjump.rs lines 218-245). -/
def build_targets (show_all_branches : Bool) (primary : Option Oid)
    (mb : Oid → Oid → Option Oid) (tf : TargetFilter) (repoPath : String)
    (rbs : List RawBranch) : List GitTarget :=
  let m := build_branches repoPath tf mb [] rbs
  let results := m.map (fun p => p.2)
  let results := results.map (updateTarget show_all_branches primary mb)
  sortLe targetLe results

/-- The branches that actually contribute a Target entry, with their
resolved tip commits, in iteration order. -/
def includedList (tf : TargetFilter) (mb : Oid → Oid → Option Oid)
    (rbs : List RawBranch) : List (GitCommit × GitBranch) :=
  rbs.filterMap (includeRaw tf mb)

def mapKeys (m : List (Oid × GitTarget)) : List Oid :=
  m.map (fun p => p.1)

def allRefs (m : List (Oid × GitTarget)) : List String :=
  (m.map (fun p => p.2.branches.map (fun b => b.ref_name))).flatten


/-! ## Display formatter (src/cmd/gitjump.rs lines 60-129) -/

inductive AnsiColor where
  | Yellow
  | Blue
  | Grey
deriving DecidableEq, Repr

/-- DisplayLine::branch_color (src/cmd/gitjump.rs lines 66-72). -/
def branch_color (t : GitTarget) : AnsiColor :=
  if t.is_primary || !t.is_merged then .Yellow else .Grey

/-- strip_prefix on character lists: some remainder when the prefix
matches, none otherwise. -/
def stripPrefixL : List Char → List Char → Option (List Char)
  | [], s => some s
  | _ :: _, [] => none
  | p :: ps, c :: cs => if p = c then stripPrefixL ps cs else none

/-- strip_suffix on character lists. -/
def stripSuffixL (suf s : List Char) : Option (List Char) :=
  (stripPrefixL suf.reverse s.reverse).map List.reverse

/-- is_remote_of (src/cmd/gitjump.rs lines 75-81):
local.strip_prefix("refs/heads/") zipped with
inspect.strip_prefix("refs/remotes/"), and then the remote remainder is
stripped of the local name as a suffix. -/
def is_remote_of (localRef : String) (inspect : String) : Bool :=
  match stripPrefixL ("refs/heads/".data) localRef.data with
  | none => false
  | some l =>
    match stripPrefixL ("refs/remotes/".data) inspect.data with
    | none => false
    | some r => (stripSuffixL l r).isSome

/-- Modelled from the spec: the suppression test the spec describes for
the rendered branch list, where the remote ref literally equals
"refs/remotes/" ++ remote ++ "/" ++ L for the already-rendered local
branch name L. Used only to compare against is_remote_of, which is the
code's actual test. -/
def is_remote_of_expected (localRef : String) (inspect : String) : Bool :=
  match stripPrefixL ("refs/heads/".data) localRef.data with
  | none => false
  | some l =>
    match stripPrefixL ("refs/remotes/".data) inspect.data with
    | none => false
    | some r => (stripSuffixL ('/' :: l) r).isSome

/-- The branch-rendering loop of DisplayLine::fmt (src/cmd/gitjump.rs
lines 105-119): a branch is skipped when some previously rendered ref
name is_remote_of-matches it; rendered branches add their ref name to
the seen set. Returns the branches actually rendered, in order. -/
def renderBranches : List GitBranch → List String → List GitBranch
  | [], _ => []
  | b :: bs, seen =>
    if seen.any (fun s => is_remote_of s b.ref_name) then
      renderBranches bs seen
    else
      b :: renderBranches bs (b.ref_name :: seen)

/-- The seen set after the loop has processed a list of branches. -/
def seenAfter : List GitBranch → List String → List String
  | [], seen => seen
  | b :: bs, seen =>
    if seen.any (fun s => is_remote_of s b.ref_name) then
      seenAfter bs seen
    else
      seenAfter bs (b.ref_name :: seen)

/-- Whether a ref name is a refs/heads/ local reference. -/
def isHeadsRef (s : String) : Bool :=
  (stripPrefixL ("refs/heads/".data) s.data).isSome

/-! ## Filesystem project scanner (src/scan.rs)

The filesystem is a finite tree of directories; each directory carries
its name, the names of its non-directory entries and its
subdirectories. Exclusion patterns are modelled by the predicate the
compiled RegexSet denotes on full paths; paths are component lists. -/

mutual
inductive FsTree where
  | node (name : String) (files : List String) (children : FsForest)
deriving DecidableEq

inductive FsForest where
  | nil
  | cons (t : FsTree) (ts : FsForest)
deriving DecidableEq
end

def FsTree.name : FsTree → String
  | .node n _ _ => n

/-- is_git_repo (src/scan.rs lines 12-16): the directory directly
contains a .git entry (file or directory). -/
def hasGitEntry (files : List String) : FsForest → Bool
  | .nil => files.contains ".git"
  | .cons t ts => t.name == ".git" || hasGitEntry files ts

mutual
/-- The GitRepoWalker loop (src/scan.rs lines 27-53) on one
non-root directory entry: prune on an exclusion match, yield and prune
on a repository root, otherwise descend. -/
def walkTree (ignore : List String → Bool) (path : List String) :
    FsTree → List (List String)
  | .node n files cs =>
    if ignore (path ++ [n]) then []
    else if hasGitEntry files cs then [path ++ [n]]
    else walkForest ignore (path ++ [n]) cs

def walkForest (ignore : List String → Bool) (path : List String) :
    FsForest → List (List String)
  | .nil => []
  | .cons t ts => walkTree ignore path t ++ walkForest ignore path ts
end

/-- scan_git_repos (src/scan.rs lines 56-67): the walkdir iteration
starting at the root. The root entry itself is skipped by the
entry.path() == self.root test before the exclusion and repo tests, so
its children are always walked. -/
def scan_git_repos (ignore : List String → Bool) (rootPath : List String) :
    FsTree → List (List String)
  | .node _ _ cs => walkForest ignore rootPath cs

mutual
/-- The directory entries the walkdir iterator hands to the loop: a
directory is always received; its children are only received when it is
neither the root, nor excluded, nor a repository root. -/
def visitTree (ignore : List String → Bool) (path : List String) :
    FsTree → List (List String)
  | .node n files cs =>
    (path ++ [n]) ::
      (if ignore (path ++ [n]) then []
       else if hasGitEntry files cs then []
       else visitForest ignore (path ++ [n]) cs)

def visitForest (ignore : List String → Bool) (path : List String) :
    FsForest → List (List String)
  | .nil => []
  | .cons t ts => visitTree ignore path t ++ visitForest ignore path ts
end

/-- All directories visited by the scan, the root included. -/
def scanVisits (ignore : List String → Bool) (rootPath : List String) :
    FsTree → List (List String)
  | .node _ _ cs => rootPath :: visitForest ignore rootPath cs

/-! ## Projects (src/cmd/project.rs, src/cmd/project/project_dir.rs)

A compiled extraction regex is modelled by the function it denotes from
a path to the optional text of its first capture group. -/

structure Project where
  path : String
  typename : String
  title : String
deriving DecidableEq, Repr

/-- ProjectExtractor::extract (src/cmd/project/project_dir.rs lines
30-50): fails when the capture fails; the typename comes from the
parent when recursion produced this candidate, else from the group
title. -/
def extractProject (capture : String → Option String) (configTitle : String)
    (dir : String) (parent : Option Project) : Option Project :=
  match capture dir with
  | none => none
  | some title =>
    some { path := dir
           typename :=
             match parent with
             | some par => par.typename ++ "/" ++ par.title
             | none => configTitle
           title := title }

/-- The capture function the default "(.*)" extractor denotes: group 1
matches the entire path. -/
def defaultCapture : String → Option String := fun s => some s

/-- The per-repository candidate construction of scan_groups
(src/cmd/project.rs lines 112-119): the group extractor, falling back
to the default config (title "unknown", extract "(.*)"); the default
extraction always succeeds, so the final fallback arm is unreachable. -/
def scanCandidate (capture : String → Option String) (configTitle : String)
    (dir : String) (parent : Option Project) : Project :=
  match extractProject capture configTitle dir parent with
  | some proj => proj
  | none =>
    match extractProject defaultCapture "unknown" dir parent with
    | some proj => proj
    | none => { path := dir, typename := "", title := "" }

/-! ## Selection outcomes (src/cmd/gitjump.rs lines 356-367,
src/cmd/project.rs lines 39-75)

The side effects each entry point performs after the interactive
front-end returns, as a function of the returned selection. -/

inductive SideEffect where
  | checkoutTarget (t : GitTarget)
  | renameWindow (name : String)
  | printPath (path : String)
deriving DecidableEq, Repr

/-- jump after select_and_return_first (src/cmd/gitjump.rs lines
356-367): no selection logs a warning and returns Ok with nothing done;
a selection proceeds to checkout_target. -/
def jump_select_outcome (sel : Option GitTarget) :
    Except String (List SideEffect) :=
  match sel with
  | none => Except.ok []
  | some t => Except.ok [SideEffect.checkoutTarget t]

/-- search after select_and_return_first (src/cmd/project.rs lines
68-75): no selection produces the error "no item was selected". -/
def search_outcome (sel : Option Project) : Except String Project :=
  match sel with
  | none => Except.error "no item was selected"
  | some proj => Except.ok proj

/-- dirs and preset (src/cmd/project.rs lines 18-48): propagate the
search error; on a selection, optionally rename the tmux window and
print the selected path. -/
def project_cmd_outcome (renameRequested : Bool) (sel : Option Project) :
    Except String (List SideEffect) :=
  match search_outcome sel with
  | Except.error e => Except.error e
  | Except.ok proj =>
    Except.ok ((if renameRequested then [SideEffect.renameWindow proj.title]
                else []) ++ [SideEffect.printPath proj.path])

/-! ## Concrete sample data used by the witness theorems -/

def tfW : TargetFilter := { branch_author := none }

def mbNone : Oid → Oid → Option Oid := fun _ _ => none

def cW : GitCommit := { id := 1, message := "m", time := 10, author := "alice" }

def c2W : GitCommit := { id := 2, message := "b", time := 20, author := "alice" }

def rb1W : RawBranch :=
  { shorthand := some "main", refname := some "refs/heads/main",
    branch_type := .Local, head := true, tip := some cW, upstream := none }

def rb2W : RawBranch :=
  { shorthand := some "feature", refname := some "refs/heads/feature",
    branch_type := .Local, head := false, tip := some c2W, upstream := none }

def rbUpW : RawBranch :=
  { shorthand := some "dev", refname := some "refs/heads/dev",
    branch_type := .Local, head := false, tip := some cW,
    upstream := some { tip := some cW, ref_string := "refs/remotes/origin/dev" } }

def bUpW : GitBranch := mkGitBranch mbNone rbUpW "dev" cW

def mbW : Oid → Oid → Option Oid := fun a b =>
  if a = 1 && b = 1 then some 1 else if a = 1 && b = 2 then some 1 else none

def outW : List GitTarget :=
  build_targets true (some 1) mbW tfW "repo" [rb1W, rb2W]

def out8W : List GitTarget :=
  build_targets false (some 1) mbW tfW "repo" [rb1W, rb2W]

def bMainW : GitBranch :=
  { name := "main", ref_name := "refs/heads/main", branch_type := .Local,
    head := true, upstream := none, status := .Unique }

def bFeatureW : GitBranch :=
  { name := "feature", ref_name := "refs/heads/feature", branch_type := .Local,
    head := false, upstream := none, status := .Unique }

def tMainW : GitTarget :=
  { repo_path := "repo", commit := cW, branches := [bMainW],
    is_merged := true, is_primary := true }

def tFeatureW : GitTarget :=
  { repo_path := "repo", commit := c2W, branches := [bFeatureW],
    is_merged := false, is_primary := false }

def bInW : GitBranch :=
  { name := "in", ref_name := "refs/heads/in", branch_type := .Local,
    head := false, upstream := none, status := .Unique }

def bOriginMainW : GitBranch :=
  { name := "origin/main", ref_name := "refs/remotes/origin/main",
    branch_type := .Remote, head := false, upstream := none,
    status := .Unique }

def ignoreRootW : List String → Bool := fun p => p == ["r"]

def ignoreBW : List String → Bool := fun p => p == ["r", "b"]

def treeRootGitW : FsTree :=
  FsTree.node "r" [".git"]
    (FsForest.cons (FsTree.node "a" [".git"] FsForest.nil) FsForest.nil)

def treeBW : FsTree :=
  FsTree.node "r" []
    (FsForest.cons (FsTree.node "a" [".git"] FsForest.nil)
      (FsForest.cons
        (FsTree.node "b" []
          (FsForest.cons (FsTree.node "c" [".git"] FsForest.nil) FsForest.nil))
        FsForest.nil))

def emptyCaptureW : String → Option String := fun _ => some ""

def noneCaptureW : String → Option String := fun _ => none

/-! ## Helper lemmas: sort and ordering -/

theorem insertLe_perm (le : α → α → Bool) (a : α) :
    ∀ l : List α, List.Perm (insertLe le a l) (a :: l)
  | [] => List.Perm.refl _
  | b :: bs => by
    unfold insertLe
    by_cases h : le a b
    · simp [h]
    · simp only [h, if_neg]
      exact ((insertLe_perm le a bs).cons b).trans (List.Perm.swap a b bs)

theorem sortLe_perm (le : α → α → Bool) :
    ∀ l : List α, List.Perm (sortLe le l) l
  | [] => List.Perm.refl _
  | a :: as =>
    (insertLe_perm le a (sortLe le as)).trans ((sortLe_perm le as).cons a)

theorem mem_sortLe {le : α → α → Bool} {l : List α} {x : α} :
    x ∈ sortLe le l ↔ x ∈ l :=
  (sortLe_perm le l).mem_iff

theorem length_sortLe (le : α → α → Bool) (l : List α) :
    (sortLe le l).length = l.length :=
  (sortLe_perm le l).length_eq

theorem mem_insertLe {le : α → α → Bool} {l : List α} {a x : α} :
    x ∈ insertLe le a l ↔ x = a ∨ x ∈ l := by
  rw [(insertLe_perm le a l).mem_iff, List.mem_cons]

theorem pairwise_insertLe {le : α → α → Bool}
    (htrans : ∀ a b c, le a b = true → le b c = true → le a c = true)
    (htotal : ∀ a b, le a b = false → le b a = true)
    {l : List α} {a : α} (h : l.Pairwise (fun x y => le x y = true)) :
    (insertLe le a l).Pairwise (fun x y => le x y = true) := by
  induction l with
  | nil => simp [insertLe]
  | cons b bs ih =>
    unfold insertLe
    rcases List.pairwise_cons.mp h with ⟨hb, hbs⟩
    by_cases hab : le a b
    · simp only [hab, if_pos, List.pairwise_cons]
      refine ⟨?_, hb, hbs⟩
      intro c hc
      rcases List.mem_cons.mp hc with hcb | hcbs
      · exact hcb ▸ hab
      · exact htrans a b c hab (hb c hcbs)
    · have hba : le b a = true := htotal a b (Bool.of_not_eq_true hab)
      simp only [hab, if_neg, Bool.false_eq_true, not_false_iff, List.pairwise_cons]
      refine ⟨?_, ih hbs⟩
      intro c hc
      rcases mem_insertLe.mp hc with hca | hcbs
      · exact hca ▸ hba
      · exact hb c hcbs

theorem sortLe_sorted (le : α → α → Bool)
    (htrans : ∀ a b c, le a b = true → le b c = true → le a c = true)
    (htotal : ∀ a b, le a b = false → le b a = true) :
    ∀ l : List α, (sortLe le l).Pairwise (fun x y => le x y = true)
  | [] => List.Pairwise.nil
  | a :: as =>
    pairwise_insertLe htrans htotal (sortLe_sorted le htrans htotal as)

theorem le_refl_of_total {le : α → α → Bool}
    (htotal : ∀ a b, le a b = false → le b a = true) (a : α) :
    le a a = true := by
  by_cases h : le a a
  · exact h
  · exact htotal a a (Bool.of_not_eq_true h)

/-- The head of a sorted nonempty list is a minimum of the original list. -/
theorem sortLe_head_min {le : α → α → Bool}
    (htrans : ∀ a b c, le a b = true → le b c = true → le a c = true)
    (htotal : ∀ a b, le a b = false → le b a = true)
    {l : List α} {b : α} {rest : List α} (h : sortLe le l = b :: rest) :
    b ∈ l ∧ ∀ x ∈ l, le b x = true := by
  have hperm := sortLe_perm le l
  rw [h] at hperm
  constructor
  · exact hperm.mem_iff.mp (List.mem_cons_self b rest)
  · intro x hx
    have hxs : x ∈ b :: rest := hperm.mem_iff.mpr hx
    rcases List.mem_cons.mp hxs with hxb | hxr
    · exact hxb ▸ le_refl_of_total htotal b
    · have hs := sortLe_sorted le htrans htotal l
      rw [h] at hs
      exact (List.pairwise_cons.mp hs).1 x hxr

theorem char_toNat_inj {a b : Char} (h : a.toNat = b.toNat) : a = b :=
  Char.ext (UInt32.ext h)

theorem lexCmp_eq_iff : ∀ {s t : List Char}, lexCmp s t = .eq ↔ s = t
  | [], [] => by simp [lexCmp]
  | [], _ :: _ => by simp [lexCmp]
  | _ :: _, [] => by simp [lexCmp]
  | a :: as, b :: bs => by
    unfold lexCmp
    split_ifs with h1 h2
    · constructor
      · intro hc
        exact absurd hc (by decide)
      · intro hc
        injection hc with hab _
        subst hab
        omega
    · constructor
      · intro hc
        exact absurd hc (by decide)
      · intro hc
        injection hc with hab _
        subst hab
        omega
    · have hab : a = b := char_toNat_inj (by omega)
      subst hab
      simp [lexCmp_eq_iff]

theorem lexCmp_swap : ∀ s t : List Char, lexCmp t s = (lexCmp s t).swap
  | [], [] => rfl
  | [], _ :: _ => rfl
  | _ :: _, [] => rfl
  | a :: as, b :: bs => by
    unfold lexCmp
    rcases Nat.lt_trichotomy a.toNat b.toNat with h | h | h
    · rw [if_neg (by omega : ¬ b.toNat < a.toNat), if_pos h, if_pos h]
      rfl
    · rw [if_neg (by omega : ¬ b.toNat < a.toNat),
        if_neg (by omega : ¬ a.toNat < b.toNat),
        if_neg (by omega : ¬ a.toNat < b.toNat),
        if_neg (by omega : ¬ b.toNat < a.toNat)]
      exact lexCmp_swap as bs
    · rw [if_pos h, if_neg (by omega : ¬ a.toNat < b.toNat), if_pos h]
      rfl

theorem lexCmp_lt_trans :
    ∀ {s t u : List Char}, lexCmp s t = .lt → lexCmp t u = .lt → lexCmp s u = .lt
  | [], [], _, h, _ => by simp [lexCmp] at h
  | [], _ :: _, [], _, h => by simp [lexCmp] at h
  | [], _ :: _, _ :: _, _, _ => by simp [lexCmp]
  | _ :: _, [], _, h, _ => by simp [lexCmp] at h
  | _ :: _, _ :: _, [], _, h => by simp [lexCmp] at h
  | a :: as, b :: bs, c :: cs, h1, h2 => by
    unfold lexCmp at h1 h2 ⊢
    rcases Nat.lt_trichotomy a.toNat b.toNat with hab | hab | hab
    · rcases Nat.lt_trichotomy b.toNat c.toNat with hbc | hbc | hbc
      · rw [if_pos (by omega : a.toNat < c.toNat)]
      · rw [if_pos (by omega : a.toNat < c.toNat)]
      · rw [if_neg (by omega : ¬ b.toNat < c.toNat),
          if_pos (by omega : c.toNat < b.toNat)] at h2
        exact absurd h2 (by decide)
    · rcases Nat.lt_trichotomy b.toNat c.toNat with hbc | hbc | hbc
      · rw [if_pos (by omega : a.toNat < c.toNat)]
      · rw [if_neg (by omega : ¬ a.toNat < b.toNat),
          if_neg (by omega : ¬ b.toNat < a.toNat)] at h1
        rw [if_neg (by omega : ¬ b.toNat < c.toNat),
          if_neg (by omega : ¬ c.toNat < b.toNat)] at h2
        rw [if_neg (by omega : ¬ a.toNat < c.toNat),
          if_neg (by omega : ¬ c.toNat < a.toNat)]
        exact lexCmp_lt_trans h1 h2
      · rw [if_neg (by omega : ¬ b.toNat < c.toNat),
          if_pos (by omega : c.toNat < b.toNat)] at h2
        exact absurd h2 (by decide)
    · rw [if_neg (by omega : ¬ a.toNat < b.toNat),
        if_pos (by omega : b.toNat < a.toNat)] at h1
      exact absurd h1 (by decide)

theorem lexCmp_eq_trans {s t u : List Char} {o : Ordering}
    (h1 : lexCmp s t = .eq) (h2 : lexCmp t u = o) : lexCmp s u = o := by
  rw [lexCmp_eq_iff.mp h1]
  exact h2


/-! ## Helper lemmas: branch and target orderings -/

theorem boolCmp_swap : ∀ x y : Bool, boolCmp y x = (boolCmp x y).swap := by
  decide

theorem boolCmp_not_gt_trans :
    ∀ x y z : Bool, boolCmp x y ≠ .gt → boolCmp y z ≠ .gt → boolCmp x z ≠ .gt := by
  decide

theorem refHeadCmp_swap (r1 r2 : List Char) (h1 h2 : Bool) :
    refHeadCmp r2 r1 h2 h1 = (refHeadCmp r1 r2 h1 h2).swap := by
  unfold refHeadCmp
  rw [lexCmp_swap r1 r2]
  rcases e : lexCmp r1 r2 with _ | _ | _
  · rfl
  · exact boolCmp_swap h1 h2
  · rfl

theorem refHeadCmp_not_gt_trans {r1 r2 r3 : List Char} {h1 h2 h3 : Bool}
    (H1 : refHeadCmp r1 r2 h1 h2 ≠ .gt) (H2 : refHeadCmp r2 r3 h2 h3 ≠ .gt) :
    refHeadCmp r1 r3 h1 h3 ≠ .gt := by
  unfold refHeadCmp at H1 H2 ⊢
  rcases e12 : lexCmp r1 r2 with _ | _ | _
  · rcases e23 : lexCmp r2 r3 with _ | _ | _
    · rw [lexCmp_lt_trans e12 e23]
      exact fun hcon => Ordering.noConfusion hcon
    · rw [← lexCmp_eq_iff.mp e23, e12]
      exact fun hcon => Ordering.noConfusion hcon
    · rw [e23] at H2
      exact absurd rfl H2
  · have h := lexCmp_eq_iff.mp e12
    subst h
    rw [e12] at H1
    rcases e23 : lexCmp r1 r3 with _ | _ | _
    · exact fun hcon => Ordering.noConfusion hcon
    · rw [e23] at H2
      exact boolCmp_not_gt_trans h1 h2 h3 H1 H2
    · rw [e23] at H2
      exact absurd rfl H2
  · rw [e12] at H1
    exact absurd rfl H1

theorem branchCmp_swap (a b : GitBranch) :
    branchCmp b a = (branchCmp a b).swap := by
  unfold branchCmp
  rcases ha : a.branch_type with _ | _ <;> rcases hb : b.branch_type with _ | _
  · exact refHeadCmp_swap _ _ _ _
  · rfl
  · rfl
  · exact refHeadCmp_swap _ _ _ _

theorem branchCmp_not_gt_trans {a b c : GitBranch}
    (H1 : branchCmp a b ≠ .gt) (H2 : branchCmp b c ≠ .gt) :
    branchCmp a c ≠ .gt := by
  unfold branchCmp at H1 H2 ⊢
  rcases ha : a.branch_type with _ | _ <;>
    rcases hb : b.branch_type with _ | _ <;>
    rcases hc : c.branch_type with _ | _ <;>
    rw [ha, hb] at H1 <;> rw [hb, hc] at H2
  · exact refHeadCmp_not_gt_trans H1 H2
  · exact fun hcon => Ordering.noConfusion hcon
  · exact absurd rfl H2
  · exact fun hcon => Ordering.noConfusion hcon
  · exact absurd rfl H1
  · exact absurd rfl H1
  · exact absurd rfl H2
  · exact refHeadCmp_not_gt_trans H1 H2

theorem branchLe_true_iff (a b : GitBranch) :
    branchLe a b = true ↔ branchCmp a b ≠ .gt := by
  unfold branchLe
  rcases e : branchCmp a b with _ | _ | _ <;> decide

theorem branchLe_false_iff (a b : GitBranch) :
    branchLe a b = false ↔ branchCmp a b = .gt := by
  unfold branchLe
  rcases e : branchCmp a b with _ | _ | _ <;> decide

theorem branchLe_trans :
    ∀ a b c : GitBranch, branchLe a b = true → branchLe b c = true →
      branchLe a c = true := by
  intro a b c h1 h2
  exact (branchLe_true_iff a c).mpr
    (branchCmp_not_gt_trans ((branchLe_true_iff a b).mp h1)
      ((branchLe_true_iff b c).mp h2))

theorem branchLe_total :
    ∀ a b : GitBranch, branchLe a b = false → branchLe b a = true := by
  intro a b h
  have hg := (branchLe_false_iff a b).mp h
  refine (branchLe_true_iff b a).mpr ?_
  rw [branchCmp_swap a b, hg]
  decide

theorem targetLe_true_iff (a b : GitTarget) :
    targetLe a b = true ↔ b.commit.time ≤ a.commit.time := by
  unfold targetLe gitTargetCmp gitCommitCmp intCmp
  split_ifs with h1 h2
  · constructor
    · intro _
      omega
    · intro _
      rfl
  · constructor
    · intro hc
      exact absurd hc (by decide)
    · intro hc
      exact absurd hc (by omega)
  · constructor
    · intro _
      omega
    · intro _
      rfl

theorem targetLe_trans :
    ∀ a b c : GitTarget, targetLe a b = true → targetLe b c = true →
      targetLe a c = true := by
  intro a b c h1 h2
  rw [targetLe_true_iff] at h1 h2 ⊢
  omega

theorem targetLe_total :
    ∀ a b : GitTarget, targetLe a b = false → targetLe b a = true := by
  intro a b h
  rw [targetLe_true_iff]
  by_cases hc : b.commit.time ≤ a.commit.time
  · exact absurd ((targetLe_true_iff a b).mpr hc) (by simp [h])
  · omega


/-! ## Helper lemmas: the target map built by build_branches -/

theorem insertBranch_mem_keys (rp : String) (c : GitCommit) (b : GitBranch) :
    ∀ (m : List (Oid × GitTarget)) (k : Oid),
      k ∈ mapKeys (insertBranch rp m c b) ↔ k = c.id ∨ k ∈ mapKeys m
  | [], k => by simp [insertBranch, mapKeys]
  | (k0, t) :: rest, k => by
    simp only [insertBranch]
    by_cases h : k0 = c.id
    · subst h
      rw [if_pos rfl]
      simp only [mapKeys, List.map_cons, List.mem_cons]
      tauto
    · rw [if_neg h]
      simp only [mapKeys, List.map_cons, List.mem_cons]
      have ih := insertBranch_mem_keys rp c b rest k
      simp only [mapKeys] at ih
      rw [ih]
      tauto

theorem insertBranch_keys_nodup (rp : String) (c : GitCommit) (b : GitBranch) :
    ∀ m : List (Oid × GitTarget),
      (mapKeys m).Nodup → (mapKeys (insertBranch rp m c b)).Nodup
  | [], _ => by simp [insertBranch, mapKeys]
  | (k0, t) :: rest, h => by
    simp only [mapKeys, List.map_cons, List.nodup_cons] at h
    simp only [insertBranch]
    by_cases hk : k0 = c.id
    · rw [if_pos hk]
      simp only [mapKeys, List.map_cons, List.nodup_cons]
      exact h
    · rw [if_neg hk]
      simp only [mapKeys, List.map_cons, List.nodup_cons]
      constructor
      · intro hmem
        have := (insertBranch_mem_keys rp c b rest k0).mp hmem
        rcases this with he | hmem2
        · exact hk he
        · exact h.1 hmem2
      · exact insertBranch_keys_nodup rp c b rest h.2

theorem insertBranch_forall {P : Oid × GitTarget → Prop} (rp : String)
    (c : GitCommit) (b : GitBranch)
    (hfresh : P (c.id, { repo_path := rp, commit := c, branches := [b],
                         is_merged := false, is_primary := false }))
    (hgrow : ∀ k t, P (k, t) → P (k, { t with branches := t.branches ++ [b] })) :
    ∀ m : List (Oid × GitTarget), (∀ p ∈ m, P p) →
      ∀ p ∈ insertBranch rp m c b, P p
  | [], _ => by
    simp only [insertBranch, List.mem_singleton]
    intro p hp
    subst hp
    exact hfresh
  | (k0, t) :: rest, h => by
    simp only [insertBranch]
    by_cases hk : k0 = c.id
    · rw [if_pos hk]
      simp only [List.mem_cons]
      intro p hp
      rcases hp with hp | hp
      · subst hp
        exact hgrow k0 t (h _ (List.mem_cons_self _ _))
      · exact h _ (List.mem_cons_of_mem _ hp)
    · rw [if_neg hk]
      simp only [List.mem_cons]
      intro p hp
      rcases hp with hp | hp
      · subst hp
        exact h _ (List.mem_cons_self _ _)
      · exact insertBranch_forall rp c b hfresh hgrow rest
          (fun q hq => h q (List.mem_cons_of_mem _ hq)) p hp

theorem allRefs_insertBranch (rp : String) (c : GitCommit) (b : GitBranch) :
    ∀ m : List (Oid × GitTarget),
      List.Perm (allRefs (insertBranch rp m c b)) (b.ref_name :: allRefs m)
  | [] => by simp [insertBranch, allRefs]
  | (k0, t) :: rest => by
    simp only [insertBranch]
    by_cases hk : k0 = c.id
    · rw [if_pos hk]
      simp only [allRefs, List.map_cons, List.flatten_cons, List.map_append,
        List.map_nil]
      rw [List.append_assoc, List.singleton_append]
      exact List.perm_middle
    · rw [if_neg hk]
      simp only [allRefs, List.map_cons, List.flatten_cons]
      have ih := allRefs_insertBranch rp c b rest
      simp only [allRefs] at ih
      exact (ih.append_left _).trans List.perm_middle


theorem build_branches_cons (rp : String) (tf : TargetFilter)
    (mb : Oid → Oid → Option Oid) (m : List (Oid × GitTarget))
    (rb : RawBranch) (rbs : List RawBranch) :
    build_branches rp tf mb m (rb :: rbs) =
      build_branches rp tf mb (processBranch rp tf mb m rb) rbs := rfl

theorem includedList_cons (tf : TargetFilter) (mb : Oid → Oid → Option Oid)
    (rb : RawBranch) (rbs : List RawBranch) :
    includedList tf mb (rb :: rbs) =
      match includeRaw tf mb rb with
      | none => includedList tf mb rbs
      | some cb => cb :: includedList tf mb rbs := by
  simp only [includedList, List.filterMap_cons]
  rcases includeRaw tf mb rb with _ | cb <;> rfl

theorem build_branches_mem_keys (rp : String) (tf : TargetFilter)
    (mb : Oid → Oid → Option Oid) :
    ∀ (rbs : List RawBranch) (m : List (Oid × GitTarget)) (k : Oid),
      k ∈ mapKeys (build_branches rp tf mb m rbs) ↔
        k ∈ mapKeys m ∨ k ∈ (includedList tf mb rbs).map (fun cb => cb.1.id)
  | [], m, k => by simp [build_branches, includedList]
  | rb :: rbs, m, k => by
    rw [build_branches_cons, includedList_cons]
    rw [build_branches_mem_keys rp tf mb rbs _ k]
    rcases e : includeRaw tf mb rb with _ | cb
    · simp only [processBranch, e]
    · simp only [processBranch, e, List.map_cons, List.mem_cons]
      rw [insertBranch_mem_keys]
      tauto

theorem build_branches_keys_nodup (rp : String) (tf : TargetFilter)
    (mb : Oid → Oid → Option Oid) :
    ∀ (rbs : List RawBranch) (m : List (Oid × GitTarget)),
      (mapKeys m).Nodup → (mapKeys (build_branches rp tf mb m rbs)).Nodup
  | [], m, h => h
  | rb :: rbs, m, h => by
    rw [build_branches_cons]
    refine build_branches_keys_nodup rp tf mb rbs _ ?_
    rcases e : includeRaw tf mb rb with _ | cb
    · simpa only [processBranch, e] using h
    · simp only [processBranch, e]
      exact insertBranch_keys_nodup rp cb.1 cb.2 m h

theorem build_branches_forall {P : Oid × GitTarget → Prop} (rp : String)
    (tf : TargetFilter) (mb : Oid → Oid → Option Oid)
    (hfresh : ∀ (c : GitCommit) (b : GitBranch),
      P (c.id, { repo_path := rp, commit := c, branches := [b],
                 is_merged := false, is_primary := false }))
    (hgrow : ∀ (k : Oid) (t : GitTarget) (b : GitBranch),
      P (k, t) → P (k, { t with branches := t.branches ++ [b] })) :
    ∀ (rbs : List RawBranch) (m : List (Oid × GitTarget)),
      (∀ p ∈ m, P p) → ∀ p ∈ build_branches rp tf mb m rbs, P p
  | [], m, h => h
  | rb :: rbs, m, h => by
    rw [build_branches_cons]
    refine build_branches_forall rp tf mb hfresh hgrow rbs _ ?_
    rcases e : includeRaw tf mb rb with _ | cb
    · simpa only [processBranch, e] using h
    · simp only [processBranch, e]
      exact insertBranch_forall rp cb.1 cb.2 (hfresh cb.1 cb.2)
        (fun k t => hgrow k t cb.2) m h

theorem allRefs_build_branches (rp : String) (tf : TargetFilter)
    (mb : Oid → Oid → Option Oid) :
    ∀ (rbs : List RawBranch) (m : List (Oid × GitTarget)),
      List.Perm (allRefs (build_branches rp tf mb m rbs))
        ((includedList tf mb rbs).map (fun cb => cb.2.ref_name) ++ allRefs m)
  | [], m => by simp [build_branches, includedList]
  | rb :: rbs, m => by
    rw [build_branches_cons, includedList_cons]
    rcases e : includeRaw tf mb rb with _ | cb
    · simpa only [processBranch, e] using allRefs_build_branches rp tf mb rbs m
    · simp only [processBranch, e, List.map_cons]
      have ih := allRefs_build_branches rp tf mb rbs (insertBranch rp m cb.1 cb.2)
      refine ih.trans ?_
      have hins := allRefs_insertBranch rp cb.1 cb.2 m
      refine (hins.append_left _).trans ?_
      exact List.perm_middle


theorem targetsMap_commit_id (rp : String) (tf : TargetFilter)
    (mb : Oid → Oid → Option Oid) (rbs : List RawBranch) :
    ∀ p ∈ build_branches rp tf mb [] rbs, (p : Oid × GitTarget).2.commit.id = p.1 :=
  @build_branches_forall (fun p => p.2.commit.id = p.1) rp tf mb
    (fun _ _ => rfl) (fun _ _ _ h => h) rbs [] (by simp)

theorem targetsMap_flags (rp : String) (tf : TargetFilter)
    (mb : Oid → Oid → Option Oid) (rbs : List RawBranch) :
    ∀ p ∈ build_branches rp tf mb [] rbs,
      (p : Oid × GitTarget).2.is_merged = false ∧ p.2.is_primary = false :=
  @build_branches_forall (fun p => p.2.is_merged = false ∧ p.2.is_primary = false)
    rp tf mb (fun _ _ => ⟨rfl, rfl⟩) (fun _ _ _ h => h) rbs [] (by simp)

theorem targetsMap_ne_nil (rp : String) (tf : TargetFilter)
    (mb : Oid → Oid → Option Oid) (rbs : List RawBranch) :
    ∀ p ∈ build_branches rp tf mb [] rbs,
      (p : Oid × GitTarget).2.branches ≠ [] :=
  @build_branches_forall (fun p => p.2.branches ≠ []) rp tf mb
    (fun _ _ => by simp) (fun _ t _ _ => by simp) rbs [] (by simp)

theorem mem_build_targets {sab : Bool} {primary : Option Oid}
    {mb : Oid → Oid → Option Oid} {tf : TargetFilter} {rp : String}
    {rbs : List RawBranch} {t : GitTarget} :
    t ∈ build_targets sab primary mb tf rp rbs ↔
      ∃ p ∈ build_branches rp tf mb [] rbs,
        t = updateTarget sab primary mb p.2 := by
  unfold build_targets
  rw [mem_sortLe, List.map_map, List.mem_map]
  constructor
  · rintro ⟨p, hp, he⟩
    exact ⟨p, hp, he.symm⟩
  · rintro ⟨p, hp, he⟩
    exact ⟨p, hp, he.symm⟩

theorem updateTarget_commit (sab : Bool) (primary : Option Oid)
    (mb : Oid → Oid → Option Oid) (t : GitTarget) :
    (updateTarget sab primary mb t).commit = t.commit := by
  rcases primary with _ | p
  · rfl
  · rcases e : mb p t.commit.id with _ | x <;>
      simp only [updateTarget] <;> rw [e]

theorem updateTarget_branches (sab : Bool) (primary : Option Oid)
    (mb : Oid → Oid → Option Oid) (t : GitTarget) :
    (updateTarget sab primary mb t).branches =
      if sab then sortLe branchLe t.branches
      else (sortLe branchLe t.branches).take 1 := by
  rcases primary with _ | p
  · rfl
  · rcases e : mb p t.commit.id with _ | x <;>
      simp only [updateTarget] <;> rw [e]

theorem updateTarget_is_merged_some (sab : Bool) (p : Oid)
    (mb : Oid → Oid → Option Oid) (t : GitTarget) :
    (updateTarget sab (some p) mb t).is_merged =
      match mb p t.commit.id with
      | some x => (x == t.commit.id)
      | none => t.is_merged := by
  rcases e : mb p t.commit.id with _ | x <;>
    simp only [updateTarget] <;> rw [e]

theorem updateTarget_is_primary_some (sab : Bool) (p : Oid)
    (mb : Oid → Oid → Option Oid) (t : GitTarget) :
    (updateTarget sab (some p) mb t).is_primary =
      match mb p t.commit.id with
      | some _ => (p == t.commit.id)
      | none => t.is_primary := by
  rcases e : mb p t.commit.id with _ | x <;>
    simp only [updateTarget] <;> rw [e]

theorem build_targets_ids_perm (sab : Bool) (primary : Option Oid)
    (mb : Oid → Oid → Option Oid) (tf : TargetFilter) (rp : String)
    (rbs : List RawBranch) :
    List.Perm ((build_targets sab primary mb tf rp rbs).map
        (fun t => t.commit.id))
      (mapKeys (build_branches rp tf mb [] rbs)) := by
  unfold build_targets
  refine ((sortLe_perm targetLe _).map _).trans ?_
  rw [List.map_map, List.map_map]
  have he : List.map
      (((fun t : GitTarget => t.commit.id) ∘ updateTarget sab primary mb) ∘
        (fun p : Oid × GitTarget => p.2)) (build_branches rp tf mb [] rbs) =
      mapKeys (build_branches rp tf mb [] rbs) := by
    unfold mapKeys
    apply List.map_congr_left
    intro p hp
    simp only [Function.comp]
    rw [updateTarget_commit]
    exact targetsMap_commit_id rp tf mb rbs p hp
  rw [he]


theorem computeStatus_of_none {mb : Oid → Oid → Option Oid} {rb : RawBranch}
    {c : GitCommit} (h : rb.upstream.bind (fun u => u.tip) = none) :
    computeStatus mb rb c = BranchStatus.Unique := by
  unfold computeStatus
  rw [h]

theorem computeStatus_of_some {mb : Oid → Oid → Option Oid} {rb : RawBranch}
    {c : GitCommit} {u : GitCommit}
    (h : rb.upstream.bind (fun u2 => u2.tip) = some u) :
    computeStatus mb rb c =
      (if u.id = c.id then BranchStatus.Match
       else
         match mb u.id c.id with
         | some base =>
           if base = u.id then BranchStatus.Ahead else BranchStatus.Behind
         | none => BranchStatus.Behind) := by
  unfold computeStatus
  rw [h]

theorem includeRaw_status {tf : TargetFilter} {mb : Oid → Oid → Option Oid}
    {rb : RawBranch} {c : GitCommit} {b : GitBranch}
    (hinc : includeRaw tf mb rb = some (c, b)) :
    b.status = computeStatus mb rb c := by
  unfold includeRaw at hinc
  rcases hs : rb.shorthand with _ | name
  · rw [hs] at hinc
    simp at hinc
  · rw [hs] at hinc
    rcases ht : rb.tip with _ | c0
    · rw [ht] at hinc
      simp at hinc
    · rw [ht] at hinc
      by_cases hf : includeBranch tf rb c0
      · simp only [hf, if_true, Option.some.injEq, Prod.mk.injEq] at hinc
        obtain ⟨h1, h2⟩ := hinc
        subst h1
        subst h2
        rfl
      · simp [hf] at hinc

theorem targetsMap_refs_nodup (rp : String) (tf : TargetFilter)
    (mb : Oid → Oid → Option Oid) (rbs : List RawBranch)
    (hnd : ((includedList tf mb rbs).map (fun cb => cb.2.ref_name)).Nodup) :
    ∀ p ∈ build_branches rp tf mb [] rbs,
      ((p : Oid × GitTarget).2.branches.map (fun b => b.ref_name)).Nodup := by
  have hperm := allRefs_build_branches rp tf mb rbs []
  have hndall : (allRefs (build_branches rp tf mb [] rbs)).Nodup := by
    refine hperm.nodup_iff.mpr ?_
    simpa [allRefs] using hnd
  intro p hp
  have hmem : p.2.branches.map (fun b => b.ref_name) ∈
      (build_branches rp tf mb [] rbs).map
        (fun q => q.2.branches.map (fun b => b.ref_name)) :=
    List.mem_map_of_mem _ hp
  unfold allRefs at hndall
  exact (List.nodup_flatten.mp hndall).1 _ hmem

theorem build_targets_sorted (sab : Bool) (primary : Option Oid)
    (mb : Oid → Oid → Option Oid) (tf : TargetFilter) (rp : String)
    (rbs : List RawBranch) :
    (build_targets sab primary mb tf rp rbs).Pairwise
      (fun a b => targetLe a b = true) := by
  unfold build_targets
  exact sortLe_sorted targetLe targetLe_trans targetLe_total _

theorem branch_color_yellow_iff (t : GitTarget) :
    branch_color t = AnsiColor.Yellow ↔
      (t.is_primary = true ∨ t.is_merged = false) := by
  cases hp : t.is_primary <;> cases hm : t.is_merged <;>
    simp [branch_color, hp, hm]

/-! ## Claim theorems -/

/-- C1: for every branch with a resolvable tip that passes the filter,
the aggregator assigns the ancestry status computed against the
configured upstream: no resolvable upstream gives Unique; equal tips
give Match; a successful merge-base equal to the upstream tip gives
Ahead; a successful merge-base equal to the branch's own tip gives
Behind; a failed merge-base lookup gives Behind. -/
theorem claim_C1 (tf : TargetFilter) (mb : Oid → Oid → Option Oid)
    (rb : RawBranch) (c : GitCommit) (b : GitBranch)
    (hinc : includeRaw tf mb rb = some (c, b)) :
    (rb.upstream.bind (fun u => u.tip) = none →
      b.status = BranchStatus.Unique)
    ∧ (∀ u : GitCommit, rb.upstream.bind (fun u2 => u2.tip) = some u →
        (u.id = c.id → b.status = BranchStatus.Match)
        ∧ (u.id ≠ c.id → mb u.id c.id = some u.id →
            b.status = BranchStatus.Ahead)
        ∧ (u.id ≠ c.id → mb u.id c.id = some c.id →
            b.status = BranchStatus.Behind)
        ∧ (u.id ≠ c.id → mb u.id c.id = none →
            b.status = BranchStatus.Behind)) := by
  have hb := includeRaw_status hinc
  constructor
  · intro hn
    rw [hb, computeStatus_of_none hn]
  · intro u hu
    rw [hb, computeStatus_of_some hu]
    refine ⟨?_, ?_, ?_, ?_⟩
    · intro he
      rw [if_pos he]
    · intro hne hmb
      rw [if_neg hne, hmb]
      simp
    · intro hne hmb
      rw [if_neg hne, hmb]
      have : ¬ (c.id = u.id) := fun hcon => hne hcon.symm
      simp [this]
    · intro hne hmb
      rw [if_neg hne, hmb]

/-- C2: for every Target the aggregator produces when the primary
reference resolves, is_merged is true exactly when
merge_base(primary, commit) succeeds and equals the commit id,
is_primary is true exactly when the lookup succeeds and the primary
equals the commit id (both flags stay false on a lookup failure), and
the branch display color is the highlighted Yellow exactly when the
Target is the primary tip or is not merged. -/
theorem claim_C2 (sab : Bool) (p : Oid) (mb : Oid → Oid → Option Oid)
    (tf : TargetFilter) (rp : String) (rbs : List RawBranch)
    (out : List GitTarget)
    (hout : out = build_targets sab (some p) mb tf rp rbs) :
    ∀ t ∈ out,
      (t.is_merged = true ↔ mb p t.commit.id = some t.commit.id)
      ∧ (t.is_primary = true ↔
          ((mb p t.commit.id).isSome = true ∧ p = t.commit.id))
      ∧ (branch_color t = AnsiColor.Yellow ↔
          (t.is_primary = true ∨ t.is_merged = false)) := by
  subst hout
  intro t ht
  obtain ⟨q, hq, he⟩ := mem_build_targets.mp ht
  obtain ⟨hm0, hp0⟩ := targetsMap_flags rp tf mb rbs q hq
  refine ⟨?_, ?_, branch_color_yellow_iff t⟩
  · rw [he, updateTarget_commit, updateTarget_is_merged_some]
    rcases e : mb p q.2.commit.id with _ | x
    · rw [hm0]
      simp
    · simp
  · rw [he, updateTarget_commit, updateTarget_is_primary_some]
    rcases e : mb p q.2.commit.id with _ | x
    · rw [hp0]
      simp
    · simp


/-- C3: the aggregation result has exactly one Target per distinct tip
commit id among the included branches, every Target keeps a non-empty
branch list, and no Target's branch list holds two entries with equal
reference names (the branch iterator of a repository yields pairwise
distinct references, which is the Nodup hypothesis). -/
theorem claim_C3 (sab : Bool) (primary : Option Oid)
    (mb : Oid → Oid → Option Oid) (tf : TargetFilter) (rp : String)
    (rbs : List RawBranch) (out : List GitTarget)
    (hout : out = build_targets sab primary mb tf rp rbs)
    (hnd : ((includedList tf mb rbs).map (fun cb => cb.2.ref_name)).Nodup) :
    ((out.map (fun t => t.commit.id)).Nodup)
    ∧ (∀ k : Oid, k ∈ out.map (fun t => t.commit.id) ↔
        k ∈ (includedList tf mb rbs).map (fun cb => cb.1.id))
    ∧ (∀ t ∈ out, t.branches ≠ [])
    ∧ (∀ t ∈ out, (t.branches.map (fun b => b.ref_name)).Nodup) := by
  subst hout
  have hperm := build_targets_ids_perm sab primary mb tf rp rbs
  refine ⟨?_, ?_, ?_, ?_⟩
  · refine hperm.nodup_iff.mpr ?_
    exact build_branches_keys_nodup rp tf mb rbs [] (by simp [mapKeys])
  · intro k
    rw [hperm.mem_iff, build_branches_mem_keys rp tf mb rbs [] k]
    simp [mapKeys]
  · intro t ht
    obtain ⟨q, hq, he⟩ := mem_build_targets.mp ht
    have hne := targetsMap_ne_nil rp tf mb rbs q hq
    have hlen : 0 < q.2.branches.length := List.length_pos.mpr hne
    rw [he, updateTarget_branches]
    have hslen : (sortLe branchLe q.2.branches).length = q.2.branches.length :=
      length_sortLe _ _
    split_ifs
    · intro hcon
      have h1 : (sortLe branchLe q.2.branches).length = 0 := by
        rw [hcon]
        rfl
      omega
    · intro hcon
      have h1 : ((sortLe branchLe q.2.branches).take 1).length = 0 := by
        rw [hcon]
        rfl
      rw [List.length_take, hslen] at h1
      omega
  · intro t ht
    obtain ⟨q, hq, he⟩ := mem_build_targets.mp ht
    have hq_nodup := targetsMap_refs_nodup rp tf mb rbs hnd q hq
    have hsort_nodup :
        ((sortLe branchLe q.2.branches).map (fun b => b.ref_name)).Nodup :=
      (((sortLe_perm branchLe q.2.branches).map (fun b => b.ref_name)).nodup_iff).mpr
        hq_nodup
    rw [he, updateTarget_branches]
    split_ifs
    · exact hsort_nodup
    · refine List.Nodup.sublist ?_ hsort_nodup
      exact List.Sublist.map _ (List.take_sublist _ _)

/-- C4: the Target list returned by the aggregator is sorted by commit
timestamp, descending: at any two positions i < j the commit time at j
is at most the commit time at i; the comparison looks only at the raw
commit timestamp. -/
theorem claim_C4 (sab : Bool) (primary : Option Oid)
    (mb : Oid → Oid → Option Oid) (tf : TargetFilter) (rp : String)
    (rbs : List RawBranch) (out : List GitTarget)
    (hout : out = build_targets sab primary mb tf rp rbs) :
    ∀ (i j : Nat) (hi : i < out.length) (hj : j < out.length), i < j →
      out[j].commit.time ≤ out[i].commit.time := by
  intro i j hi hj hij
  have hs : out.Pairwise (fun a b => targetLe a b = true) := by
    rw [hout]
    exact build_targets_sorted sab primary mb tf rp rbs
  have hle := List.pairwise_iff_getElem.mp hs i j hi hj hij
  exact (targetLe_true_iff _ _).mp hle

/-- C8: with show_all_branches false, every Target returned by the
aggregator keeps exactly one branch: an element of the Target's
aggregated branch list that the branch ordering places at or before
every other element; the remaining branches are discarded. -/
theorem claim_C8 (primary : Option Oid) (mb : Oid → Oid → Option Oid)
    (tf : TargetFilter) (rp : String) (rbs : List RawBranch)
    (out : List GitTarget)
    (hout : out = build_targets false primary mb tf rp rbs) :
    ∀ t ∈ out, ∃ q ∈ build_branches rp tf mb [] rbs,
      t.commit = (q : Oid × GitTarget).2.commit
      ∧ ∃ b ∈ q.2.branches, t.branches = [b]
          ∧ ∀ b2 ∈ q.2.branches, branchLe b b2 = true := by
  subst hout
  intro t ht
  obtain ⟨q, hq, he⟩ := mem_build_targets.mp ht
  refine ⟨q, hq, by rw [he, updateTarget_commit], ?_⟩
  have hne := targetsMap_ne_nil rp tf mb rbs q hq
  rcases hsrt : sortLe branchLe q.2.branches with _ | ⟨b, rest⟩
  · exfalso
    have := length_sortLe branchLe q.2.branches
    rw [hsrt] at this
    simp at this
    exact hne (List.length_eq_zero.mp this.symm)
  · have hmin := sortLe_head_min branchLe_trans branchLe_total hsrt
    refine ⟨b, hmin.1, ?_, hmin.2⟩
    rw [he, updateTarget_branches]
    simp only [Bool.false_eq_true, if_false, hsrt, List.take_succ_cons,
      List.take_zero]


/-- Witness for C1 at a concrete branch whose upstream tip equals its
own tip: the computed status is Match. -/
theorem claim_C1_witness : bUpW.status = BranchStatus.Match :=
  ((claim_C1 tfW mbNone rbUpW cW bUpW (by decide)).2 cW rfl).1 rfl

/-- Witness for C2 on a concrete aggregation: the Target at the primary
tip reports is_merged, because merge_base(primary, commit) returned the
commit itself. -/
theorem claim_C2_witness :
    tMainW.is_merged = true ↔ mbW 1 tMainW.commit.id = some tMainW.commit.id :=
  (claim_C2 true 1 mbW tfW "repo" [rb1W, rb2W] outW rfl tMainW (by decide)).1

/-- Witness for C3 on a concrete aggregation: the produced commit ids
are pairwise distinct. -/
theorem claim_C3_witness : (outW.map (fun t => t.commit.id)).Nodup :=
  (claim_C3 true (some 1) mbW tfW "repo" [rb1W, rb2W] outW rfl (by decide)).1

/-- Witness for C4 on a concrete aggregation with two targets: the
second target's commit time is at most the first's. -/
theorem claim_C4_witness :
    (outW.get ⟨1, by decide⟩).commit.time ≤
      (outW.get ⟨0, by decide⟩).commit.time := by
  have h := claim_C4 true (some 1) mbW tfW "repo" [rb1W, rb2W] outW rfl
    0 1 (by decide) (by decide) (by decide)
  simpa [List.get_eq_getElem] using h

/-- Witness for C8 on a concrete aggregation with show_all_branches
false: the retained single branch is minimal in the aggregated list. -/
theorem claim_C8_witness :
    ∃ q ∈ build_branches "repo" tfW mbW [] [rb1W, rb2W],
      tFeatureW.commit = (q : Oid × GitTarget).2.commit
      ∧ ∃ b ∈ q.2.branches, tFeatureW.branches = [b]
          ∧ ∀ b2 ∈ q.2.branches, branchLe b b2 = true :=
  claim_C8 (some 1) mbW tfW "repo" [rb1W, rb2W] out8W rfl tFeatureW (by decide)


/-! ## Helper lemmas: display deduplication -/

theorem stripPrefixL_eq_some :
    ∀ (p s t : List Char), stripPrefixL p s = some t ↔ s = p ++ t
  | [], s, t => by simp [stripPrefixL]
  | p :: ps, [], t => by simp [stripPrefixL]
  | p :: ps, c :: cs, t => by
    simp only [stripPrefixL, List.cons_append]
    by_cases h : p = c
    · subst h
      rw [if_pos rfl]
      constructor
      · intro hh
        rw [(stripPrefixL_eq_some ps cs t).mp hh]
      · intro hh
        injection hh with _ h2
        exact (stripPrefixL_eq_some ps cs t).mpr h2
    · rw [if_neg h]
      constructor
      · intro hc
        exact absurd hc (by simp)
      · intro hc
        injection hc with h1 _
        exact absurd h1.symm h

theorem stripSuffixL_eq_some (suf s t : List Char) :
    stripSuffixL suf s = some t ↔ s = t ++ suf := by
  unfold stripSuffixL
  constructor
  · intro h
    rcases e : stripPrefixL suf.reverse s.reverse with _ | u
    · rw [e] at h
      simp at h
    · rw [e] at h
      simp only [Option.map_some', Option.some.injEq] at h
      have hs := (stripPrefixL_eq_some _ _ _).mp e
      have h2 : s = u.reverse ++ suf := by
        have h3 := congrArg List.reverse hs
        simpa [List.reverse_append] using h3
      rw [← h]
      exact h2
  · intro h
    subst h
    have h4 : stripPrefixL suf.reverse ((t ++ suf).reverse) = some t.reverse := by
      refine (stripPrefixL_eq_some _ _ _).mpr ?_
      simp [List.reverse_append]
    rw [h4]
    simp

theorem stripSuffixL_isSome_iff (suf s : List Char) :
    (stripSuffixL suf s).isSome = true ↔ ∃ t, s = t ++ suf := by
  rcases e : stripSuffixL suf s with _ | t
  · constructor
    · intro h
      exact absurd h (by simp)
    · rintro ⟨t, ht⟩
      have h2 := (stripSuffixL_eq_some suf s t).mpr ht
      rw [e] at h2
      exact Option.noConfusion h2
  · simp only [Option.isSome_some, true_iff]
    exact ⟨t, (stripSuffixL_eq_some suf s t).mp e⟩

theorem strip_remotes_heads (l : List Char) :
    stripPrefixL ("refs/remotes/".data) ("refs/heads/".data ++ l) = none := by
  rfl

theorem heads_not_remotes {s : List Char} {l : List Char}
    (h : stripPrefixL ("refs/heads/".data) s = some l) :
    stripPrefixL ("refs/remotes/".data) s = none := by
  rw [(stripPrefixL_eq_some _ _ _).mp h]
  exact strip_remotes_heads l

theorem is_remote_of_false_of_heads {t : String} (h : isHeadsRef t = true)
    (s : String) : is_remote_of s t = false := by
  unfold isHeadsRef at h
  rcases e : stripPrefixL ("refs/heads/".data) t.data with _ | l
  · rw [e] at h
    simp at h
  · unfold is_remote_of
    rcases e2 : stripPrefixL ("refs/heads/".data) s.data with _ | l2
    · rfl
    · rw [heads_not_remotes e]

theorem is_remote_of_expected_iff (localRef inspect : String) :
    is_remote_of_expected localRef inspect = true ↔
      ∃ l rem : List Char,
        localRef.data = ("refs/heads/".data) ++ l ∧
        inspect.data = ("refs/remotes/".data) ++ (rem ++ '/' :: l) := by
  unfold is_remote_of_expected
  rcases e1 : stripPrefixL ("refs/heads/".data) localRef.data with _ | l
  · constructor
    · intro h
      simp at h
    · rintro ⟨l, rem, h1, h2⟩
      have h3 := (stripPrefixL_eq_some _ _ _).mpr h1
      rw [e1] at h3
      exact Option.noConfusion h3
  · rcases e2 : stripPrefixL ("refs/remotes/".data) inspect.data with _ | r
    · constructor
      · intro h
        simp at h
      · rintro ⟨l2, rem, h1, h2⟩
        have h3 := (stripPrefixL_eq_some ("refs/remotes/".data) inspect.data
          (rem ++ '/' :: l2)).mpr h2
        rw [e2] at h3
        exact Option.noConfusion h3
    · have hl := (stripPrefixL_eq_some _ _ _).mp e1
      have hr := (stripPrefixL_eq_some _ _ _).mp e2
      rw [stripSuffixL_isSome_iff]
      constructor
      · rintro ⟨t, ht⟩
        exact ⟨l, t, hl, by rw [hr, ht]⟩
      · rintro ⟨l2, rem, h1, h2⟩
        have hll : l = l2 := by
          rw [hl] at h1
          exact List.append_cancel_left h1
        subst hll
        refine ⟨rem, ?_⟩
        rw [hr, ← List.append_assoc] at h2
        exact List.append_cancel_left h2

theorem renderBranches_sublist :
    ∀ (bs : List GitBranch) (seen : List String),
      List.Sublist (renderBranches bs seen) bs
  | [], _ => List.nil_sublist _
  | b :: bs, seen => by
    unfold renderBranches
    split_ifs with h
    · exact (renderBranches_sublist bs seen).cons b
    · exact (renderBranches_sublist bs (b.ref_name :: seen)).cons₂ b

theorem renderBranches_seen_blocks :
    ∀ (bs : List GitBranch) (seen : List String) (s : String), s ∈ seen →
      ∀ b0 ∈ renderBranches bs seen, is_remote_of s b0.ref_name = false
  | [], _, _, _ => by simp [renderBranches]
  | b :: bs, seen, s, hs => by
    unfold renderBranches
    split_ifs with h
    · exact renderBranches_seen_blocks bs seen s hs
    · intro b0 hb0
      rcases List.mem_cons.mp hb0 with he | hmem
      · subst he
        rw [Bool.not_eq_true] at h
        have h2 := List.any_eq_false.mp h s hs
        rw [Bool.not_eq_true] at h2
        exact h2
      · exact renderBranches_seen_blocks bs _ s
          (List.mem_cons_of_mem _ hs) b0 hmem

theorem mem_seenAfter_of_mem :
    ∀ (bs : List GitBranch) (seen : List String) (s : String), s ∈ seen →
      s ∈ seenAfter bs seen
  | [], _, _, hs => hs
  | b :: bs, seen, s, hs => by
    unfold seenAfter
    split_ifs with h
    · exact mem_seenAfter_of_mem bs seen s hs
    · exact mem_seenAfter_of_mem bs _ s (List.mem_cons_of_mem _ hs)

theorem renderBranches_append :
    ∀ (xs ys : List GitBranch) (seen : List String),
      renderBranches (xs ++ ys) seen =
        renderBranches xs seen ++ renderBranches ys (seenAfter xs seen)
  | [], ys, seen => rfl
  | x :: xs, ys, seen => by
    simp only [List.cons_append, renderBranches, seenAfter]
    split_ifs with h
    · exact renderBranches_append xs ys seen
    · simp only [List.append_eq]
      rw [renderBranches_append xs ys (x.ref_name :: seen)]
      rfl

theorem heads_mem_renderBranches :
    ∀ (bs : List GitBranch) (seen : List String) (b1 : GitBranch),
      b1 ∈ bs → isHeadsRef b1.ref_name = true → b1 ∈ renderBranches bs seen
  | [], _, _, h, _ => absurd h (List.not_mem_nil _)
  | b :: bs, seen, b1, hmem, hh => by
    unfold renderBranches
    rcases List.mem_cons.mp hmem with he | hmem2
    · subst he
      split_ifs with h
      · exfalso
        obtain ⟨s, hs, hp⟩ := List.any_eq_true.mp h
        rw [is_remote_of_false_of_heads hh s] at hp
        exact absurd hp (by decide)
      · exact List.mem_cons_self _ _
    · split_ifs with h
      · exact heads_mem_renderBranches bs seen b1 hmem2 hh
      · exact List.mem_cons_of_mem _ (heads_mem_renderBranches bs _ b1 hmem2 hh)

theorem not_mem_of_refs_nodup {xs ys : List GitBranch} {b : GitBranch}
    (hnd : ((xs ++ b :: ys).map (fun x => x.ref_name)).Nodup) :
    b ∉ xs ∧ b ∉ ys := by
  rw [List.map_append, List.map_cons] at hnd
  have h2 := List.nodup_middle.mp hnd
  rw [List.nodup_cons] at h2
  have hnm := h2.1
  constructor
  · intro hmem
    exact hnm (List.mem_append_left _ (List.mem_map_of_mem _ hmem))
  · intro hmem
    exact hnm (List.mem_append_right _ (List.mem_map_of_mem _ hmem))

/-- C5 counterexample: with a local branch refs/heads/in rendered
first, the remote refs/remotes/origin/main is suppressed by the code's
suffix test, although it is not the exact remote counterpart
refs/remotes/(remote)/in of any rendered local branch, contradicting
the claim's iff. -/
theorem claim_C5_counterexample :
    renderBranches [bInW, bOriginMainW] [] = [bInW]
    ∧ is_remote_of bInW.ref_name bOriginMainW.ref_name = true
    ∧ is_remote_of_expected bInW.ref_name bOriginMainW.ref_name = false := by
  decide

/-- C5 amended: a branch is suppressed exactly when some
already-rendered ref name matches it under is_remote_of, which tests
that the ref stripped of refs/remotes/ ends with the already-rendered
local name stripped of refs/heads/ (a suffix test, not equality with
the exact remote counterpart); consequently a local branch and any
later remote branch matching it under that test, in particular its
exact remote counterpart, are never both rendered. -/
theorem claim_C5_amended :
    (∀ (xs ys : List GitBranch) (b : GitBranch),
      ((xs ++ b :: ys).map (fun x => x.ref_name)).Nodup →
      (b ∈ renderBranches (xs ++ b :: ys) [] ↔
        ∀ s ∈ seenAfter xs [], is_remote_of s b.ref_name = false))
    ∧ (∀ (xs ys : List GitBranch) (b1 b2 : GitBranch),
        isHeadsRef b1.ref_name = true → b2 ∉ xs → b2 ∈ ys →
        is_remote_of b1.ref_name b2.ref_name = true →
        b1 ∈ renderBranches (xs ++ b1 :: ys) []
        ∧ b2 ∉ renderBranches (xs ++ b1 :: ys) []) := by
  constructor
  · intro xs ys b hnd
    obtain ⟨hbx, hby⟩ := not_mem_of_refs_nodup hnd
    rw [renderBranches_append]
    constructor
    · intro hmem
      rcases List.mem_append.mp hmem with hx | hm
      · exact absurd ((renderBranches_sublist xs []).subset hx) hbx
      · revert hm
        unfold renderBranches
        split_ifs with h
        · intro hm
          exact absurd ((renderBranches_sublist ys _).subset hm) hby
        · intro _
          rw [Bool.not_eq_true] at h
          intro s hs
          have h2 := List.any_eq_false.mp h s hs
          rw [Bool.not_eq_true] at h2
          exact h2
    · intro hall
      have hcond : ((seenAfter xs []).any
          (fun s => is_remote_of s b.ref_name)) = false :=
        List.any_eq_false.mpr (fun s hs => by simp [hall s hs])
      refine List.mem_append_right _ ?_
      unfold renderBranches
      split_ifs with h
      · rw [hcond] at h
        exact absurd h (by decide)
      · exact List.mem_cons_self _ _
  · intro xs ys b1 b2 hh hb2xs hb2ys hmatch
    constructor
    · exact heads_mem_renderBranches _ [] b1
        (List.mem_append_right _ (List.mem_cons_self _ _)) hh
    · intro hmem
      rw [renderBranches_append] at hmem
      rcases List.mem_append.mp hmem with hx | hm
      · exact hb2xs ((renderBranches_sublist xs []).subset hx)
      · revert hm
        unfold renderBranches
        split_ifs with h
        · exfalso
          obtain ⟨s, hs, hp⟩ := List.any_eq_true.mp h
          rw [is_remote_of_false_of_heads hh s] at hp
          exact absurd hp (by decide)
        · intro hm
          rcases List.mem_cons.mp hm with he | hm2
          · rw [he, is_remote_of_false_of_heads hh b1.ref_name] at hmatch
            exact absurd hmatch (by decide)
          · have h3 := renderBranches_seen_blocks ys
              (b1.ref_name :: seenAfter xs []) b1.ref_name
              (List.mem_cons_self _ _) b2 hm2
            rw [h3] at hmatch
            exact absurd hmatch (by decide)

/-- Witness for the amended C5: local refs/heads/main followed by its
exact remote counterpart refs/remotes/origin/main renders only the
local branch. -/
theorem claim_C5_amended_witness :
    bMainW ∈ renderBranches ([] ++ bMainW :: [bOriginMainW]) []
    ∧ bOriginMainW ∉ renderBranches ([] ++ bMainW :: [bOriginMainW]) [] :=
  claim_C5_amended.2 [] [bOriginMainW] bMainW bOriginMainW (by decide)
    (by decide) (by decide) (by decide)


/-! ## Helper lemmas: filesystem scanner -/

mutual
theorem walkTree_facts (ignore : List String → Bool) :
    ∀ (path : List String) (t : FsTree), ∀ q ∈ walkTree ignore path t,
      ignore q = false ∧ path <+: q ∧ path ≠ q
  | path, .node n files cs => by
    intro q hq
    unfold walkTree at hq
    split_ifs at hq with h1 h2
    · exact absurd hq (List.not_mem_nil _)
    · rw [List.mem_singleton] at hq
      subst hq
      rw [Bool.not_eq_true] at h1
      refine ⟨h1, List.prefix_append path [n], ?_⟩
      intro hcon
      have hlen := congrArg List.length hcon
      simp at hlen
    · have hfacts := walkForest_facts ignore (path ++ [n]) cs q hq
      refine ⟨hfacts.1, (List.prefix_append path [n]).trans hfacts.2.1, ?_⟩
      intro hcon
      have hle := hfacts.2.1.length_le
      rw [← hcon] at hle
      simp at hle

theorem walkForest_facts (ignore : List String → Bool) :
    ∀ (path : List String) (f : FsForest), ∀ q ∈ walkForest ignore path f,
      ignore q = false ∧ path <+: q ∧ path ≠ q
  | _, .nil => by
    intro q hq
    exact absurd hq (List.not_mem_nil _)
  | path, .cons t ts => by
    intro q hq
    unfold walkForest at hq
    rcases List.mem_append.mp hq with h | h
    · exact walkTree_facts ignore path t q h
    · exact walkForest_facts ignore path ts q h
end

mutual
theorem visitTree_facts (ignore : List String → Bool) :
    ∀ (path : List String) (t : FsTree), ∀ q ∈ visitTree ignore path t,
      path <+: q ∧ path ≠ q
      ∧ ∀ r, path <+: r → r ≠ path → r <+: q → r ≠ q → ignore r = false
  | path, .node n files cs => by
    intro q hq
    unfold visitTree at hq
    rw [List.mem_cons] at hq
    rcases hq with he | hq
    · subst he
      refine ⟨List.prefix_append path [n], ?_, ?_⟩
      · intro hcon
        have hlen := congrArg List.length hcon
        simp at hlen
      · intro r hr1 hr2 hr3 hr4
        exfalso
        have l1 := hr1.length_le
        have l3 := hr3.length_le
        have e1 : path.length ≠ r.length :=
          fun hcon => hr2 (hr1.eq_of_length hcon).symm
        have e3 : r.length ≠ (path ++ [n]).length :=
          fun hcon => hr4 (hr3.eq_of_length hcon)
        have hlen : (path ++ [n]).length = path.length + 1 := by simp
        omega
    · split_ifs at hq with h1 h2
      · exact absurd hq (List.not_mem_nil _)
      · exact absurd hq (List.not_mem_nil _)
      · have hf := visitForest_facts ignore (path ++ [n]) cs q hq
        refine ⟨(List.prefix_append path [n]).trans hf.1, ?_, ?_⟩
        · intro hcon
          have hle := hf.1.length_le
          rw [← hcon] at hle
          simp at hle
        · intro r hr1 hr2 hr3 hr4
          by_cases hrp : r = path ++ [n]
          · subst hrp
            rw [Bool.not_eq_true] at h1
            exact h1
          · rcases List.prefix_or_prefix_of_prefix hr3 hf.1 with hc | hc
            · exfalso
              have l1 := hr1.length_le
              have lc := hc.length_le
              have e1 : path.length ≠ r.length :=
                fun hcon => hr2 (hr1.eq_of_length hcon).symm
              have e2 : r.length ≠ (path ++ [n]).length :=
                fun hcon => hrp (hc.eq_of_length hcon)
              have hlen : (path ++ [n]).length = path.length + 1 := by simp
              omega
            · exact hf.2.2 r hc (fun hcon => hrp hcon) hr3 hr4

theorem visitForest_facts (ignore : List String → Bool) :
    ∀ (path : List String) (f : FsForest), ∀ q ∈ visitForest ignore path f,
      path <+: q ∧ path ≠ q
      ∧ ∀ r, path <+: r → r ≠ path → r <+: q → r ≠ q → ignore r = false
  | _, .nil => by
    intro q hq
    exact absurd hq (List.not_mem_nil _)
  | path, .cons t ts => by
    intro q hq
    unfold visitForest at hq
    rcases List.mem_append.mp hq with h | h
    · exact visitTree_facts ignore path t q h
    · exact visitForest_facts ignore path ts q h
end

/-! ## Claim theorems: selection, scanner, projects -/

/-- C6 counterexample: aborting the project picker is not a successful
exit; search bails with the error "no item was selected", which dirs
and preset propagate. -/
theorem claim_C6_counterexample :
    project_cmd_outcome false none = Except.error "no item was selected" := rfl

/-- C6 amended: aborting the git-jump selector is a successful
termination with no side effects (no checkout, nothing printed);
aborting the project picker performs no side effect either, but
terminates with the error "no item was selected" rather than success. -/
theorem claim_C6_amended :
    jump_select_outcome none = Except.ok []
    ∧ ∀ r : Bool,
        project_cmd_outcome r none = Except.error "no item was selected" :=
  ⟨rfl, fun _ => rfl⟩

/-- C7 counterexample: a scan whose root itself matches the exclusion
pattern still walks the root's subtree and yields a repository from
inside it, because the walker skips the root before the exclusion
test. -/
theorem claim_C7_counterexample :
    ignoreRootW ["r"] = true
    ∧ ["r"] <+: ["r", "a"]
    ∧ ["r", "a"] ≠ ["r"]
    ∧ ["r", "a"] ∈ scan_git_repos ignoreRootW ["r"] treeBW
    ∧ ["r", "a"] ∈ scanVisits ignoreRootW ["r"] treeBW := by
  decide

/-- C7 amended: every yielded candidate fails the exclusion test, and
no directory strictly below an excluded non-root directory is ever
visited; the scan root itself is exempt from the exclusion test (its
children are walked even when the root's path matches a pattern). -/
theorem claim_C7_amended (ignore : List String → Bool)
    (rootPath : List String) (t : FsTree) :
    (∀ q ∈ scan_git_repos ignore rootPath t, ignore q = false)
    ∧ (∀ q ∈ scanVisits ignore rootPath t,
        ∀ r, rootPath <+: r → r ≠ rootPath → r <+: q → r ≠ q →
          ignore r = false) := by
  rcases t with ⟨n, files, cs⟩
  constructor
  · intro q hq
    exact (walkForest_facts ignore rootPath cs q hq).1
  · intro q hq r hr1 hr2 hr3 hr4
    rcases List.mem_cons.mp hq with he | hq2
    · subst he
      exact absurd (hr1.eq_of_length
        (Nat.le_antisymm hr3.length_le hr1.length_le).symm).symm hr2
    · exact (visitForest_facts ignore rootPath cs q hq2).2.2 r hr1 hr2 hr3 hr4

/-- Witness for the amended C7: with the exclusion pattern matching
r/b, the yielded candidate r/a indeed fails the exclusion test. -/
theorem claim_C7_amended_witness : ignoreBW ["r", "a"] = false :=
  (claim_C7_amended ignoreBW ["r"] treeBW).1 ["r", "a"] (by decide)

/-- C10: the scanner never yields the root itself, every yield lies
strictly below the root, and the root's children are still walked and
can be yielded even when the root directly contains a .git entry. -/
theorem claim_C10 (ignore : List String → Bool) (rootPath : List String)
    (t : FsTree) :
    (∀ q ∈ scan_git_repos ignore rootPath t, rootPath <+: q ∧ q ≠ rootPath)
    ∧ scan_git_repos (fun _ => false) ["r"] treeRootGitW = [["r", "a"]] := by
  constructor
  · intro q hq
    rcases t with ⟨n, files, cs⟩
    have h := walkForest_facts ignore rootPath cs q hq
    exact ⟨h.2.1, fun hcon => h.2.2 hcon.symm⟩
  · rfl

/-- Witness for C10: the yielded candidate of the concrete scan lies
strictly below the root. -/
theorem claim_C10_witness :
    ["r"] <+: ["r", "a"] ∧ ["r", "a"] ≠ ["r"] :=
  (claim_C10 (fun _ => false) ["r"] treeRootGitW).1 ["r", "a"] (by decide)


/-- C9 counterexample: a group whose extract regex captures the empty
string (for example the pattern consisting of one empty group, which
matches every path) produces a candidate whose title is empty, so the
emitted candidate titles are not always non-empty. -/
theorem claim_C9_counterexample :
    (scanCandidate emptyCaptureW "Local" "/src/foo" none).title = "" := rfl

/-- C9 amended: every discovered repository root yields a candidate: a
capture failure does not exclude it but falls back to the default
"(.*)" extractor, whose capture is the entire path, labelled "unknown"
when there is no parent; when the group's capture succeeds the title is
exactly the captured text, which may be empty when the capture group
matches the empty string. -/
theorem claim_C9_amended (capture : String → Option String)
    (configTitle : String) (dir : String) (parent : Option Project) :
    (capture dir = none →
      (scanCandidate capture configTitle dir parent).title = dir
      ∧ (parent = none →
          (scanCandidate capture configTitle dir parent).typename = "unknown"))
    ∧ (∀ ttl, capture dir = some ttl →
        (scanCandidate capture configTitle dir parent).title = ttl) := by
  constructor
  · intro hc
    constructor
    · simp [scanCandidate, extractProject, defaultCapture, hc]
    · intro hp
      subst hp
      simp [scanCandidate, extractProject, defaultCapture, hc]
  · intro ttl hc
    simp [scanCandidate, extractProject, hc]

/-- Witness for the amended C9: with a failing group capture, the
candidate is still produced, titled with the full path by the default
extractor. -/
theorem claim_C9_amended_witness :
    (scanCandidate noneCaptureW "Local" "/src/foo" none).title = "/src/foo" :=
  ((claim_C9_amended noneCaptureW "Local" "/src/foo" none).1 rfl).1

end Shelf
